import Mathlib

/-!
Verification of the Richardson-Lucy deconvolution notebook
(src/Signal/richardson_lucy.ipynb).

The notebook defines

  def convolve(image, kernel):
      return convolve_fft(image, kernel, boundary=wrap, crop=False,
                          nan_treatment=fill, normalize_kernel=False)

  def RL_Deconvolve(image, psf, n_iter=30):
      x_hat = 0.5 * np.ones(image.shape)
      psf_rot = np.rot90(psf, 2)
      for i in range(n_iter):
          x_hat *= convolve(image / convolve(x_hat, psf), psf_rot)
      return x_hat

We embed H x W arrays as functions ZMod H -> ZMod W -> Rat: the modular
index arithmetic of ZMod realises exactly the wrap-around (periodic)
boundary of convolve_fft with boundary=wrap and crop=False, and the
entries are exact rationals.  convolve_fft aligns the kernel on its
center cell ((n-1)/2 along an axis of length n) and computes the
circular convolution, which is the sum written out in the convolve definition below.
np.rot90 is embedded index-for-index, and the for-loop of RL_Deconvolve
is embedded as a structurally recursive loop; a Python int iteration
count may be negative, in which case range(n) is empty, so the loop
count is modelled as an integer whose nonpositive values run the body
zero times.
-/

namespace RL

/-- A dense H x W image of exact rational pixel values, indexed with
wrap-around (periodic) boundary semantics. -/
abbrev Image (H W : ℕ) : Type := ZMod H → ZMod W → ℚ

/-- Index of the kernel center cell along an axis of length n, as used
by convolve_fft: (n-1)/2 with integer division. -/
def center (n : ℕ) : ZMod n := (((n - 1) / 2 : ℕ) : ZMod n)

/-- Embedding of the notebook function convolve: convolve_fft with
boundary=wrap (periodic indices), crop=False (output keeps the image
shape), normalize_kernel=False (kernel used as given), kernel aligned on
its center cell.  This is the circular convolution the FFT computes. -/
def convolve {H W : ℕ} [NeZero H] [NeZero W] (image kernel : Image H W) : Image H W :=
  fun i j => ∑ a : ZMod H, ∑ b : ZMod W,
    image a b * kernel (i - a + center H) (j - b + center W)

/-- Embedding of np.rot90: a counterclockwise quarter turn, so an
H x W array becomes a W x H array with entry (i, j) taken from
(j, W - 1 - i); in ZMod W the index W - 1 - i is -1 - i. -/
def rot90 {H W : ℕ} (m : Image H W) : Image W H :=
  fun i j => m j (-1 - i)

/-- Reversing both axes of an array, the [::-1, ::-1] view that
np.rot90(m, 2) is documented to equal. -/
def reverseBoth {H W : ℕ} (m : Image H W) : Image H W :=
  fun i j => m (-1 - i) (-1 - j)

/-- Element-wise product of two arrays (the numpy star operator). -/
def pmul {H W : ℕ} (x y : Image H W) : Image H W :=
  fun i j => x i j * y i j

/-- Element-wise quotient of two arrays (the numpy slash operator).  Rational division
is total with x / 0 = 0; see the discussion of division by zero in the
results for the error-handling claim. -/
def pdiv {H W : ℕ} (x y : Image H W) : Image H W :=
  fun i j => x i j / y i j

/-- The constant array c * np.ones((H, W)). -/
def constImage (H W : ℕ) (c : ℚ) : Image H W :=
  fun _ _ => c

/-- The body of the RL_Deconvolve loop:
x_hat *= convolve(image / convolve(x_hat, psf), psf_rot). -/
def RL_step {H W : ℕ} [NeZero H] [NeZero W]
    (image psf_ psf_rot x_hat : Image H W) : Image H W :=
  pmul x_hat (convolve (pdiv image (convolve x_hat psf_)) psf_rot)

/-- The for-loop of RL_Deconvolve: run the body n times, threading the
working estimate; image, psf and psf_rot are read-only throughout. -/
def RL_loop {H W : ℕ} [NeZero H] [NeZero W]
    (image psf_ psf_rot : Image H W) : ℕ → Image H W → Image H W
  | 0, x_hat => x_hat
  | n + 1, x_hat => RL_loop image psf_ psf_rot n (RL_step image psf_ psf_rot x_hat)

/-- Embedding of RL_Deconvolve: initialise the estimate to the constant
0.5 array, rotate the psf by 180 degrees (np.rot90(psf, 2)) once, and
run the loop body range(n_iter) many times, i.e. max(n_iter, 0) times
for a Python integer n_iter. -/
def RL_Deconvolve {H W : ℕ} [NeZero H] [NeZero W]
    (image psf_ : Image H W) (n_iter : ℤ) : Image H W :=
  RL_loop image psf_ (rot90 (rot90 psf_)) n_iter.toNat (constImage H W (1 / 2))

/-- The identity kernel: a single 1 at the center cell, zeros
elsewhere. -/
def deltaK (H W : ℕ) : Image H W :=
  fun i j => if i = center H then (if j = center W then 1 else 0) else 0

/-- Row-major list-of-lists rendering of an image, making the array
shape observable: the outer list has one entry per row. -/
def toLists {H W : ℕ} (m : Image H W) : List (List ℚ) :=
  (List.range H).map fun i => (List.range W).map fun j => m (i : ℕ) (j : ℕ)

/-- The full store of arrays RL_Deconvolve can reach: the two input
arrays, the flipped kernel, and the working estimate.  Used to make the
frame condition (which arrays a run may change) expressible. -/
structure RLState (H W : ℕ) where
  image : Image H W
  psf : Image H W
  psf_rot : Image H W
  x_hat : Image H W

/-- One pass of the loop body as a transformer of the whole store: the
in-place update x_hat *= ... rewrites only the x_hat array. -/
def RL_body {H W : ℕ} [NeZero H] [NeZero W] (s : RLState H W) : RLState H W :=
  { s with
    x_hat := pmul s.x_hat (convolve (pdiv s.image (convolve s.x_hat s.psf)) s.psf_rot) }

/-- RL_Deconvolve as a run over the store: initialise the store with
the inputs, the once-flipped kernel and the 0.5 estimate, then apply
the body max(n_iter, 0) times. -/
def RL_run {H W : ℕ} [NeZero H] [NeZero W]
    (image psf_ : Image H W) (n_iter : ℤ) : RLState H W :=
  RL_body^[n_iter.toNat]
    { image := image, psf := psf_, psf_rot := rot90 (rot90 psf_),
      x_hat := constImage H W (1 / 2) }

end RL

namespace RL

theorem rl_loop_eq_iterate {H W : ℕ} [NeZero H] [NeZero W]
    (image psf_ psf_rot : Image H W) (n : ℕ) (x : Image H W) :
    RL_loop image psf_ psf_rot n x = (RL_step image psf_ psf_rot)^[n] x := by
  induction n generalizing x with
  | zero => rfl
  | succ n ih =>
    rw [RL_loop, ih, Function.iterate_succ_apply]

theorem shift_eq_center_iff {n : ℕ} (x y : ZMod n) :
    x - y + center n = center n ↔ y = x := by
  constructor
  · intro h
    have h0 : x - y = 0 := by
      have := congrArg (fun t => t - center n) h
      simpa using this
    have := sub_eq_zero.mp h0
    exact this.symm
  · intro h
    rw [h, sub_self, zero_add]

theorem convolve_deltaK {H W : ℕ} [NeZero H] [NeZero W] (f : Image H W) :
    convolve f (deltaK H W) = f := by
  funext i j
  unfold convolve deltaK
  rw [Finset.sum_eq_single i]
  · rw [Finset.sum_eq_single j]
    · rw [if_pos ((shift_eq_center_iff i i).mpr rfl),
        if_pos ((shift_eq_center_iff j j).mpr rfl), mul_one]
    · intro b _ hb
      rw [if_pos ((shift_eq_center_iff i i).mpr rfl),
        if_neg (fun hc => hb ((shift_eq_center_iff j b).mp hc)), mul_zero]
    · intro hj
      exact absurd (Finset.mem_univ j) hj
  · intro a _ ha
    have hcond : ¬ (i - a + center H = center H) :=
      fun hc => ha ((shift_eq_center_iff i a).mp hc)
    simp only [if_neg hcond, mul_zero, Finset.sum_const_zero]
  · intro hi
    exact absurd (Finset.mem_univ i) hi

theorem convolve_const {H W : ℕ} [NeZero H] [NeZero W] (c : ℚ) (g : Image H W) :
    convolve (constImage H W c) g =
      constImage H W (c * ∑ a : ZMod H, ∑ b : ZMod W, g a b) := by
  funext i j
  unfold convolve constImage
  have inner : ∀ x : ZMod H,
      (∑ b : ZMod W, g x (j - b + center W)) = ∑ b : ZMod W, g x b := by
    intro x
    calc (∑ b : ZMod W, g x (j - b + center W))
        = ∑ b : ZMod W, g x ((Equiv.subLeft (j + center W)) b) := by
          refine Finset.sum_congr rfl fun b _ => ?_
          rw [Equiv.subLeft_apply]
          ring_nf
      _ = ∑ b : ZMod W, g x b := Equiv.sum_comp (Equiv.subLeft (j + center W)) (g x)
  calc (∑ a : ZMod H, ∑ b : ZMod W, c * g (i - a + center H) (j - b + center W))
      = ∑ a : ZMod H, c * ∑ b : ZMod W, g (i - a + center H) (j - b + center W) := by
        refine Finset.sum_congr rfl fun a _ => ?_
        rw [Finset.mul_sum]
    _ = ∑ a : ZMod H, c * ∑ b : ZMod W, g (i - a + center H) b := by
        refine Finset.sum_congr rfl fun a _ => ?_
        rw [inner]
    _ = c * ∑ a : ZMod H, ∑ b : ZMod W, g (i - a + center H) b := by
        rw [Finset.mul_sum]
    _ = c * ∑ a : ZMod H, ∑ b : ZMod W, g ((Equiv.subLeft (i + center H)) a) b := by
        congr 1
        refine Finset.sum_congr rfl fun a _ => ?_
        rw [Equiv.subLeft_apply]
        ring_nf
    _ = c * ∑ a : ZMod H, ∑ b : ZMod W, g a b :=
        congrArg (c * ·) (Equiv.sum_comp (Equiv.subLeft (i + center H))
          (fun a => ∑ b : ZMod W, g a b))

/-- C1: RL_Deconvolve applies the multiplicative Richardson-Lucy update
estimate := estimate * convolve(observed / convolve(estimate, kernel),
kernel rotated 180 degrees) exactly n times, with no convergence check,
starting from the constant 0.5 array of the observed image shape, where
convolve is circular (wrap boundary, uncropped, unnormalised-kernel)
convolution. -/
theorem rl_deconvolve_eq_iterate {H W : ℕ} [NeZero H] [NeZero W]
    (observed kernel : Image H W) (n : ℕ) :
    RL_Deconvolve observed kernel (n : ℤ) =
      (fun est => pmul est
        (convolve (pdiv observed (convolve est kernel)) (rot90 (rot90 kernel))))^[n]
        (constImage H W (1 / 2)) := by
  unfold RL_Deconvolve
  rw [Int.toNat_natCast, rl_loop_eq_iterate]
  rfl

/-- Witness for rl_deconvolve_eq_iterate on a concrete 1 x 1 image with
2 iterations. -/
theorem rl_deconvolve_eq_iterate_witness :
    RL_Deconvolve (constImage 1 1 4) (constImage 1 1 1) ((2 : ℕ) : ℤ) =
      (fun est => pmul est
        (convolve (pdiv (constImage 1 1 4) (convolve est (constImage 1 1 1)))
          (rot90 (rot90 (constImage 1 1 1)))))^[2]
        (constImage 1 1 (1 / 2)) :=
  rl_deconvolve_eq_iterate (constImage 1 1 4) (constImage 1 1 1) 2

/-- C3: the result of RL_Deconvolve, rendered as a row-major list of
rows, has H rows of W entries each: the output shape equals the
observed image shape (H, W) for every iteration count. -/
theorem rl_shape {H W : ℕ} [NeZero H] [NeZero W]
    (observed kernel : Image H W) (n : ℤ) :
    (toLists (RL_Deconvolve observed kernel n)).length = H ∧
    ∀ row ∈ toLists (RL_Deconvolve observed kernel n), row.length = W := by
  constructor
  · simp [toLists]
  · intro row hrow
    simp only [toLists, List.mem_map] at hrow
    obtain ⟨i, _, hi⟩ := hrow
    simp [← hi]

/-- Witness for rl_shape at a concrete 2 x 3 input. -/
theorem rl_shape_witness :
    (toLists (RL_Deconvolve (constImage 2 3 4) (constImage 2 3 1) 1)).length = 2 ∧
    ∀ row ∈ toLists (RL_Deconvolve (constImage 2 3 4) (constImage 2 3 1) 1),
      row.length = 3 :=
  rl_shape (constImage 2 3 4) (constImage 2 3 1) 1

/-- C8: np.rot90(psf, 2) is the reversal of the kernel along both
spatial axes, it is computed once before the loop, and RL_Deconvolve
equals the iterate of the loop body in which every iteration reuses
that same flipped kernel unchanged. -/
theorem rl_kernel_flipped_once {H W : ℕ} [NeZero H] [NeZero W]
    (observed kernel : Image H W) (n : ℤ) :
    rot90 (rot90 kernel) = reverseBoth kernel ∧
    RL_Deconvolve observed kernel n =
      (fun est => RL_step observed kernel (reverseBoth kernel) est)^[n.toNat]
        (constImage H W (1 / 2)) := by
  constructor
  · rfl
  · unfold RL_Deconvolve
    rw [rl_loop_eq_iterate]
    rfl

theorem center_odd (h : ℕ) : center (2 * h + 1) = (h : ZMod (2 * h + 1)) :=
  congrArg Nat.cast (by omega)

theorem neg_one_sub_center_odd (h : ℕ) :
    (-1 - center (2 * h + 1) : ZMod (2 * h + 1)) = center (2 * h + 1) := by
  rw [center_odd]
  have h0 : ((2 * h + 1 : ℕ) : ZMod (2 * h + 1)) = 0 := ZMod.natCast_self _
  push_cast at h0
  linear_combination -h0

theorem neg_one_sub_eq_center_iff (h : ℕ) (i : ZMod (2 * h + 1)) :
    (-1 - i = center (2 * h + 1)) ↔ i = center (2 * h + 1) := by
  constructor
  · intro h1
    have h2 : i = -1 - center (2 * h + 1) := by linear_combination -h1
    rw [h2, neg_one_sub_center_odd]
  · intro h1
    rw [h1, neg_one_sub_center_odd]

theorem rot180_deltaK (h w : ℕ) :
    rot90 (rot90 (deltaK (2 * h + 1) (2 * w + 1))) = deltaK (2 * h + 1) (2 * w + 1) := by
  funext i j
  show deltaK (2 * h + 1) (2 * w + 1) (-1 - i) (-1 - j) =
    deltaK (2 * h + 1) (2 * w + 1) i j
  simp only [deltaK, neg_one_sub_eq_center_iff]

theorem rl_step_deltaK (h w : ℕ) (observed x : Image (2 * h + 1) (2 * w + 1)) :
    RL_step observed (deltaK (2 * h + 1) (2 * w + 1))
      (deltaK (2 * h + 1) (2 * w + 1)) x = pmul x (pdiv observed x) := by
  unfold RL_step
  rw [convolve_deltaK, convolve_deltaK]

theorem pmul_half_pdiv_half {H W : ℕ} (observed : Image H W) :
    pmul (constImage H W (1 / 2)) (pdiv observed (constImage H W (1 / 2))) = observed := by
  funext i j
  show (1 / 2 : ℚ) * (observed i j / (1 / 2)) = observed i j
  ring

theorem pmul_pdiv_self {H W : ℕ} (observed : Image H W) :
    pmul observed (pdiv observed observed) = observed := by
  funext i j
  show observed i j * (observed i j / observed i j) = observed i j
  rcases eq_or_ne (observed i j) 0 with h0 | h0
  · rw [h0, zero_mul]
  · rw [div_self h0, mul_one]

theorem rl_identity_aux (h w : ℕ) (observed : Image (2 * h + 1) (2 * w + 1))
    (n : ℤ) (hn : 1 ≤ n) :
    RL_Deconvolve observed (deltaK (2 * h + 1) (2 * w + 1)) n = observed := by
  unfold RL_Deconvolve
  rw [rot180_deltaK]
  obtain ⟨m, hm⟩ : ∃ m, n.toNat = m + 1 := ⟨n.toNat - 1, by omega⟩
  rw [hm, RL_loop, rl_step_deltaK, pmul_half_pdiv_half]
  clear hm hn
  induction m with
  | zero => rfl
  | succ k ih => rw [RL_loop, rl_step_deltaK, pmul_pdiv_self, ih]

/-- C2: with the identity kernel (a single 1 at the center cell, zeros
elsewhere, odd extents so the center is well defined), RL_Deconvolve
returns the observed image exactly for every iteration count of at
least 1; the 1 x 1 scenario observed = [[4]], kernel = [[1]],
iterations = 5 is the witness below. -/
theorem rl_identity_kernel (h w : ℕ) (observed : Image (2 * h + 1) (2 * w + 1))
    (n : ℤ) (hn : 1 ≤ n) :
    RL_Deconvolve observed (deltaK (2 * h + 1) (2 * w + 1)) n = observed :=
  rl_identity_aux h w observed n hn

/-- Witness for rl_identity_kernel: the spec scenario observed = [[4]],
kernel = [[1]] (the 1 x 1 identity kernel), iterations = 5 gives
[[4]]. -/
theorem rl_identity_kernel_witness :
    deltaK 1 1 = constImage 1 1 1 ∧ (1 : ℤ) ≤ 5 ∧
    RL_Deconvolve (constImage 1 1 4) (deltaK 1 1) 5 = constImage 1 1 4 :=
  ⟨by decide, by norm_num, rl_identity_kernel 0 0 (constImage 1 1 4) 5 (by norm_num)⟩

/-- Witness for rl_kernel_flipped_once at a concrete 1 x 1 input. -/
theorem rl_kernel_flipped_once_witness :
    rot90 (rot90 (constImage 1 1 1)) = reverseBoth (constImage 1 1 1) ∧
    RL_Deconvolve (constImage 1 1 4) (constImage 1 1 1) 3 =
      (fun est => RL_step (constImage 1 1 4) (constImage 1 1 1)
        (reverseBoth (constImage 1 1 1)) est)^[(3 : ℤ).toNat]
        (constImage 1 1 (1 / 2)) :=
  rl_kernel_flipped_once (constImage 1 1 4) (constImage 1 1 1) 3

theorem sum_zmod_one (f : ZMod 1 → ℚ) : (∑ a : ZMod 1, f a) = f 0 := by
  rw [Finset.univ_unique, Finset.sum_singleton]
  exact congrArg f (Subsingleton.elim _ _)

theorem sum_constImage (H W : ℕ) [NeZero H] [NeZero W] (c : ℚ) :
    (∑ p : ZMod H, ∑ q : ZMod W, constImage H W c p q) = (H : ℚ) * W * c := by
  simp only [constImage, Finset.sum_const, Finset.card_univ, ZMod.card, smul_eq_mul,
    nsmul_eq_mul]
  ring

theorem pdiv_const {H W : ℕ} (c a : ℚ) :
    pdiv (constImage H W c) (constImage H W a) = constImage H W (c / a) := rfl

theorem pmul_const {H W : ℕ} (a b : ℚ) :
    pmul (constImage H W a) (constImage H W b) = constImage H W (a * b) := rfl

theorem qmul_qdiv_self (c : ℚ) : c * (c / c) = c := by
  rcases eq_or_ne c 0 with h0 | h0
  · rw [h0, zero_mul]
  · rw [div_self h0, mul_one]

theorem rl_step_const {H W : ℕ} [NeZero H] [NeZero W] (c a : ℚ) (K : Image H W)
    (hsum : (∑ p : ZMod H, ∑ q : ZMod W, K p q) = 1) :
    RL_step (constImage H W c) K K (constImage H W a) =
      constImage H W (a * (c / a)) := by
  unfold RL_step
  rw [convolve_const, hsum, mul_one, pdiv_const, convolve_const, hsum, mul_one, pmul_const]

/-- C6: for a kernel that is symmetric under a 180 degree rotation and
sums to 1, RL_Deconvolve maps the flat constant image of value c to
itself for every iteration count of at least 1: the flat image is a
fixed point of the iteration. -/
theorem rl_flat_fixed_point {H W : ℕ} [NeZero H] [NeZero W] (c : ℚ)
    (kernel : Image H W) (hsym : rot90 (rot90 kernel) = kernel)
    (hsum : (∑ p : ZMod H, ∑ q : ZMod W, kernel p q) = 1)
    (n : ℤ) (hn : 1 ≤ n) :
    RL_Deconvolve (constImage H W c) kernel n = constImage H W c := by
  unfold RL_Deconvolve
  rw [hsym]
  obtain ⟨m, hm⟩ : ∃ m, n.toNat = m + 1 := ⟨n.toNat - 1, by omega⟩
  have hhalf : (1 / 2 : ℚ) * (c / (1 / 2)) = c := by ring
  rw [hm, RL_loop, rl_step_const c (1 / 2) kernel hsum, hhalf]
  clear hm hn
  induction m with
  | zero => rfl
  | succ k ih => rw [RL_loop, rl_step_const c c kernel hsum, qmul_qdiv_self, ih]

/-- Witness for rl_flat_fixed_point: the 3 x 3 box averaging kernel
(every entry 1/9) applied to the flat image of value 7 for 2 iterations
returns the flat image of value 7. -/
theorem rl_flat_fixed_point_witness :
    rot90 (rot90 (constImage 3 3 (1 / 9))) = constImage 3 3 (1 / 9) ∧
    (∑ p : ZMod 3, ∑ q : ZMod 3, constImage 3 3 (1 / 9) p q) = 1 ∧
    (1 : ℤ) ≤ 2 ∧
    RL_Deconvolve (constImage 3 3 7) (constImage 3 3 (1 / 9)) 2 = constImage 3 3 7 :=
  ⟨rfl, by rw [sum_constImage]; norm_num, by norm_num,
    rl_flat_fixed_point 7 (constImage 3 3 (1 / 9)) rfl
      (by rw [sum_constImage]; norm_num) 2 (by norm_num)⟩

/-- C5 counterexample: running RL_Deconvolve for 1 iteration on
observed = [[4]] with kernel = [[1]] yields [[4]], but feeding that
output back in with 0 iterations yields the fresh initial estimate
[[0.5]], not the fed-back array. -/
theorem rl_feedback_counterexample :
    RL_Deconvolve (RL_Deconvolve (constImage 1 1 4) (constImage 1 1 1) 1)
        (constImage 1 1 1) 0 ≠
      RL_Deconvolve (constImage 1 1 4) (constImage 1 1 1) 1 := by
  intro hEq
  have hk : deltaK 1 1 = constImage 1 1 1 := by decide
  have hval : RL_Deconvolve (constImage 1 1 4) (constImage 1 1 1) 1 =
      constImage 1 1 4 := by
    rw [← hk]
    exact rl_identity_aux 0 0 (constImage 1 1 4) 1 (by norm_num)
  have hzero : RL_Deconvolve (RL_Deconvolve (constImage 1 1 4) (constImage 1 1 1) 1)
      (constImage 1 1 1) 0 = constImage 1 1 (1 / 2) := rfl
  have hcontr : constImage 1 1 (1 / 2) = constImage 1 1 4 :=
    hzero.symm.trans (hEq.trans hval)
  have h00 := congrFun (congrFun hcontr 0) 0
  norm_num [constImage] at h00

/-- C5 amended: calling RL_Deconvolve with 0 iterations on the output
of an N-iteration run returns the uniform 0.5 initial estimate (the
initialisation is independent of prior runs); it equals the fed-back
output only when that output is itself the constant 0.5 array. -/
theorem rl_feedback_zero_iterations {H W : ℕ} [NeZero H] [NeZero W]
    (observed kernel : Image H W) (N : ℤ) (_hN : 1 ≤ N) :
    RL_Deconvolve (RL_Deconvolve observed kernel N) kernel 0 =
      constImage H W (1 / 2) := rfl

/-- Witness for rl_feedback_zero_iterations at a concrete 1 x 1
input. -/
theorem rl_feedback_zero_iterations_witness :
    RL_Deconvolve (RL_Deconvolve (constImage 1 1 4) (constImage 1 1 1) 1)
        (constImage 1 1 1) 0 = constImage 1 1 (1 / 2) :=
  rl_feedback_zero_iterations (constImage 1 1 4) (constImage 1 1 1) 1 (by norm_num)

/-- C7: with iterations = 0 the loop body never runs and RL_Deconvolve
returns the initial uniform estimate, the constant 0.5 array of the
observed image shape. -/
theorem rl_zero_iterations {H W : ℕ} [NeZero H] [NeZero W]
    (observed kernel : Image H W) :
    RL_Deconvolve observed kernel 0 = constImage H W (1 / 2) := rfl

/-- Witness for rl_zero_iterations at a concrete 1 x 1 input. -/
theorem rl_zero_iterations_witness :
    RL_Deconvolve (constImage 1 1 4) (constImage 1 1 1) 0 = constImage 1 1 (1 / 2) :=
  rl_zero_iterations (constImage 1 1 4) (constImage 1 1 1)

theorem rl_body_fields {H W : ℕ} [NeZero H] [NeZero W] (m : ℕ) (s : RLState H W) :
    (RL_body^[m] s).image = s.image ∧ (RL_body^[m] s).psf = s.psf ∧
    (RL_body^[m] s).psf_rot = s.psf_rot ∧
    (RL_body^[m] s).x_hat = (RL_step s.image s.psf s.psf_rot)^[m] s.x_hat := by
  induction m generalizing s with
  | zero => exact ⟨rfl, rfl, rfl, rfl⟩
  | succ k ih =>
    rw [Function.iterate_succ_apply, Function.iterate_succ_apply]
    obtain ⟨h1, h2, h3, h4⟩ := ih (RL_body s)
    exact ⟨h1, h2, h3, h4⟩

/-- C9: across a whole run of RL_Deconvolve over the store of arrays,
the observed image and the kernel are left exactly as they were; only
the working estimate changes, and the sole outcome of the run is the final
estimate, which is the returned RL_Deconvolve value. -/
theorem rl_no_side_effects {H W : ℕ} [NeZero H] [NeZero W]
    (observed kernel : Image H W) (n : ℤ) :
    (RL_run observed kernel n).image = observed ∧
    (RL_run observed kernel n).psf = kernel ∧
    (RL_run observed kernel n).x_hat = RL_Deconvolve observed kernel n := by
  obtain ⟨h1, h2, h3, h4⟩ := rl_body_fields n.toNat
    { image := observed, psf := kernel, psf_rot := rot90 (rot90 kernel),
      x_hat := constImage H W (1 / 2) }
  refine ⟨h1, h2, ?_⟩
  have hrl : RL_Deconvolve observed kernel n =
      (RL_step observed kernel (rot90 (rot90 kernel)))^[n.toNat]
        (constImage H W (1 / 2)) := by
    unfold RL_Deconvolve
    rw [rl_loop_eq_iterate]
  rw [hrl]
  exact h4

/-- Witness for rl_no_side_effects at a concrete 1 x 1 input. -/
theorem rl_no_side_effects_witness :
    (RL_run (constImage 1 1 4) (constImage 1 1 1) 2).image = constImage 1 1 4 ∧
    (RL_run (constImage 1 1 4) (constImage 1 1 1) 2).psf = constImage 1 1 1 ∧
    (RL_run (constImage 1 1 4) (constImage 1 1 1) 2).x_hat =
      RL_Deconvolve (constImage 1 1 4) (constImage 1 1 1) 2 :=
  rl_no_side_effects (constImage 1 1 4) (constImage 1 1 1) 2

/-- C10: for every nonpositive integer iteration count, range(n_iter)
is empty, so RL_Deconvolve runs the body zero times and returns the
uniform 0.5 array; no error is raised. -/
theorem rl_nonpositive_iterations {H W : ℕ} [NeZero H] [NeZero W]
    (observed kernel : Image H W) (n : ℤ) (hn : n ≤ 0) :
    RL_Deconvolve observed kernel n = constImage H W (1 / 2) := by
  unfold RL_Deconvolve
  rw [Int.toNat_of_nonpos hn]
  rfl

/-- Witness for rl_nonpositive_iterations at a concrete 1 x 1 input
with the negative count -3. -/
theorem rl_nonpositive_iterations_witness :
    RL_Deconvolve (constImage 1 1 4) (constImage 1 1 1) (-3) = constImage 1 1 (1 / 2) :=
  rl_nonpositive_iterations (constImage 1 1 4) (constImage 1 1 1) (-3) (by norm_num)

end RL
